import Mathlib

/-!
Verification of `broadcastify-cli` (`src/broadcastify_cli/broadcastify_cli.py`)
against its design specification.

The development shallowly embeds the parts of the program the claims are
about:

* the date-range driver (`download_archives_by_range`, lines 88-111, and
  `download_past_n_days`, lines 427-445).  Calendar dates are modelled as
  integers counting days (the ordinal behind Python's `datetime`): adding
  `datetime.timedelta(days=1)` is `+ 1`, and comparison of well-formed
  zero-padded `YYYY/MM/DD` strings agrees with the comparison of their
  ordinals, so the string comparisons on lines 92-96 become integer
  comparisons;
* the fetch pool (`download_archive_by_date`, lines 139-148, and
  `download_mp3`, lines 158-182).  The thread pool submits one
  `download_mp3` call per archive id and each call performs exactly one
  HTTP request, so the batch is modelled as a map over the id list with
  the response of each request supplied by an oracle function; the
  `max_workers` bound is kept as an (operationally irrelevant) parameter;
* the concatenator (`combine_mp3_files`, lines 271-322).  The filesystem
  reads are parameters (the list of entries of the directory) and the
  mutations are recorded in an action trace; file names are kept relative
  to the per-date directory (glob's constant `{directory}/` prefix is
  dropped, which does not affect name comparisons), and the two distinct
  write targets of the code - the per-date directory and its parent feed
  directory - are distinguished by distinct trace constructors.  Python's
  stable `sorted` is modelled by `List.insertionSort` (also a stable
  sort);
* the transcript fusion loop of `transcribe_audio` (lines 363-416),
  embedded in full: overlap search, speaker mapping, JSON segment list and
  the human-readable text, including Python's `str.endswith` test and the
  `str(datetime.timedelta(seconds=int(...)))` timestamp, both reproduced
  at the character level.  Python `float` times appear only in order
  comparisons and an `int(...)` truncation, so they are modelled by `ℚ`.

Python's string operations used by the code (`startswith`, `endswith`,
`sorted`, `<`/`>` on strings, `f"{n:02d}"`) are defined here over character
lists so that every definition is executable by kernel reduction.
-/

namespace BroadcastifyCli

/-! ## Python string primitives -/

/-- Whether the character list `p` is an initial run of `s`
(the character-level content of Python's `str.startswith`). -/
def charsBegin : List Char → List Char → Bool
  | [], _ => true
  | _ :: _, [] => false
  | a :: as, b :: bs => a == b && charsBegin as bs

/-- Python `s.startswith(p)`. -/
def str_startsWith (s p : String) : Bool := charsBegin p.data s.data

/-- Python `s.endswith(p)`: the reversal of `s` begins with the reversal of `p`. -/
def str_endsWith (s p : String) : Bool := charsBegin p.data.reverse s.data.reverse

/-- Python string comparison `a <= b`: lexicographic on code points, a
proper initial run counting as smaller. -/
def charsLe : List Char → List Char → Bool
  | [], _ => true
  | _ :: _, [] => false
  | a :: as, b :: bs => if a = b then charsLe as bs else decide (a < b)

/-- Python `a <= b` on strings. -/
def pystr_le (a b : String) : Bool := charsLe a.data b.data

/-- Decimal digits of `n`, most significant first, written with fuel
(`n` itself suffices) to keep the recursion structural. -/
def decCharsAux : ℕ → ℕ → List Char
  | _, 0 => []
  | 0, _ + 1 => []
  | f + 1, n + 1 => decCharsAux f ((n + 1) / 10) ++ [Nat.digitChar ((n + 1) % 10)]

/-- Decimal representation of a natural number (Python `str(n)` / `"%d" % n`). -/
def decChars (n : ℕ) : List Char := if n = 0 then ['0'] else decCharsAux n n

/-- Python `f"{n:02d}"`: decimal, zero-padded on the left to width 2. -/
def pad2Chars (n : ℕ) : List Char := if n < 10 then '0' :: decChars n else decChars n

/-- Numeric value of a decimal digit character. -/
def charVal (c : Char) : ℕ := c.toNat - 48

/-- Value of a most-significant-first decimal digit string. -/
def decValChars (l : List Char) : ℕ := l.foldl (fun a c => 10 * a + charVal c) 0

/-! ## Date-range driver

`download_archives_by_range` (lines 88-111) and `download_past_n_days`
(lines 427-445).  A date is its day ordinal (an integer). -/

/-- InvalidRangeError outcomes of the driver: the two `exit(1)` branches of
lines 92-98, carrying the printed diagnostic. -/
def invalid_range_today_msg : String :=
  "Invalid date range, start date and end date must be before today"

/-- Diagnostic of the second validation branch (line 97). -/
def invalid_range_order_msg : String :=
  "Invalid date range, start date must be before end date"

/-- The `while start_date <= end_date` accumulation loop of lines 106-108:
every date from `s` to `e` inclusive, ascending. -/
def rangeDatesAsc (s e : ℤ) : List ℤ :=
  if h : s ≤ e then s :: rangeDatesAsc (s + 1) e else []
termination_by (e + 1 - s).toNat
decreasing_by omega

/-- Lines 88-111: validate the explicit range (both endpoints at most
today, start at most end; otherwise exit before any download), then expand
it to the ascending list of dates for which `download_archive_by_date` is
invoked.  An `Except.error` models `exit(1)`: no date is processed and no
network request is made. -/
def download_archives_by_range (start_date end_date today : ℤ) : Except String (List ℤ) :=
  if start_date > today ∨ end_date > today then .error invalid_range_today_msg
  else if start_date > end_date then .error invalid_range_order_msg
  else .ok (rangeDatesAsc start_date end_date)

/-- The `while current_date >= start_date` loop of lines 434-445: dates
from `current` down to `start`, descending. -/
def pastDatesDesc (start current : ℤ) : List ℤ :=
  if h : current ≥ start then current :: pastDatesDesc start (current - 1) else []
termination_by (current + 1 - start).toNat
decreasing_by omega

/-- Lines 427-445: the trailing-N-days mode.  `end_date` is today,
`start_date` is today minus `past_days` days, and the downloads walk the
dates descending from today. -/
def download_past_n_days (today : ℤ) (past_days : ℕ) : List ℤ :=
  pastDatesDesc (today - past_days) today

/-! ## Fetch pool

`download_archive_by_date` (lines 139-148) submits one `download_mp3`
future per archive id to a `ThreadPoolExecutor(max_workers=jobs)` and then
waits for all of them; `download_mp3` (lines 158-182) performs a single
HTTP GET and either writes the file (status 200) or logs the failure. -/

/-- The observable part of the `requests.get` response used by
`download_mp3`: status code, the final file name derived from the resolved
`response.url` (line 169), and the diagnostic body. -/
structure HttpResponse where
  status_code : ℕ
  final_file_name : String
  text : String

/-- What one fetch did: wrote the file, or logged and skipped (lines 173-182). -/
inductive FetchOutcome where
  | saved (file_name : String)
  | failedLogged (err_text : String)
deriving DecidableEq

/-- Lines 158-182: one fetch attempt.  No retry: the function performs
exactly one request and returns. -/
def download_mp3 (response : HttpResponse) : FetchOutcome :=
  if response.status_code = 200 then .saved response.final_file_name
  else .failedLogged response.text

/-- Lines 139-148: the per-date batch.  One future per archive id, each
future one `download_mp3` call whose response is given by the oracle
`respond`; the `jobs` bound only limits parallelism and plays no role in
which fetches are attempted.  The `as_completed` loop is the barrier: the
list of outcomes is complete when the function returns. -/
def download_archive_fetches (archive_ids : List String) (jobs : ℕ)
    (respond : String → HttpResponse) : List FetchOutcome :=
  archive_ids.map (fun a_id => download_mp3 (respond a_id))

/-! ## Concatenator

`combine_mp3_files` (lines 271-322). -/

/-- One recorded filesystem mutation of `combine_mp3_files`.  Names are
relative to the per-date directory except `copyToParentDir`, which writes
into the parent feed directory (lines 312-315). -/
inductive FsAction where
  | writeTempList (entries : List String)
  | runConcat (inputs : List String) (output : String)
  | removeFile (path : String)
  | copyToParentDir (file_name : String)
  | removeTempList
deriving DecidableEq

/-- Result of `combine_mp3_files`: the early returns of lines 273-275 and
283-285, the `ffmpeg.Error` branch of lines 318-319, or success. -/
inductive CombineResult where
  | ffmpegMissing
  | noFiles
  | encodeError (stderr : String)
  | ok (output : String)
deriving DecidableEq

/-- The output name `combined_{feed_id}_{date_str}.mp3` of lines 287 and 314. -/
def combined_name (feed_id date_str : String) : String :=
  "combined_" ++ feed_id ++ "_" ++ date_str ++ ".mp3"

/-- The comprehension of line 280 before sorting: the directory entries
matching glob's `*.mp3` pattern whose basename does not start with
`combined_`. -/
def eligible_mp3_files (dir_files : List String) : List String :=
  dir_files.filter (fun f => str_endsWith f ".mp3" && !(str_startsWith f "combined_"))

/-- Line 280 in full: `sorted([...])`.  Python `sorted` is a stable sort
by the lexicographic string order; `List.insertionSort` is one. -/
def sorted_mp3_files (dir_files : List String) : List String :=
  List.insertionSort (fun a b => pystr_le a b = true) (eligible_mp3_files dir_files)

/-- Lines 271-322.  `ffmpeg_path` is `which("ffmpeg")`; `dir_files` are the
directory entries (glob's `*.mp3` pattern and the `combined_` exclusion of
line 280 become the filter); the external encoder's verdict is the
`encoder` parameter.  Returns the result together with the ordered trace
of filesystem mutations: temp list written (lines 290-293), encoder run
writing the output into the per-date directory (lines 298-304), originals
removed (lines 308-309), the combined file copied into the parent feed
directory (lines 312-315), and - in the `finally` of line 320-322 - the
temp list removed on both the success and the encoder-error path. -/
def combine_mp3_files (ffmpeg_path : Option String) (dir_files : List String)
    (feed_id date_str : String) (encoder : Except String Unit) :
    CombineResult × List FsAction :=
  match ffmpeg_path with
  | none => (.ffmpegMissing, [])
  | some _ =>
    let mp3_files := sorted_mp3_files dir_files
    if mp3_files = [] then (.noFiles, [])
    else
      let output_file := combined_name feed_id date_str
      match encoder with
      | .error e => (.encodeError e, [.writeTempList mp3_files, .removeTempList])
      | .ok _ => (.ok output_file,
          [.writeTempList mp3_files, .runConcat mp3_files output_file]
            ++ mp3_files.map FsAction.removeFile
            ++ [.copyToParentDir output_file, .removeTempList])

/-! ## Transcript fusion engine

The per-file fusion loop of `transcribe_audio` (lines 363-416).  Times are
rationals (Python floats enter only comparisons and `int(...)`). -/

/-- One Whisper transcription segment (fields used by the loop:
`start`, `end`, `text`, `seek`). -/
structure TranscriptionSegment where
  start : ℚ
  end_ : ℚ
  text : String
  seek : ℤ
deriving DecidableEq

/-- One diarization segment with the label returned by `get_label()`. -/
structure DiarizationSegment where
  start : ℚ
  end_ : ℚ
  label : String
deriving DecidableEq

/-- One record of `output_json["segments"]` (lines 405-411), field for field. -/
structure FusedEntry where
  text : String
  start : ℚ
  end_ : ℚ
  seek : ℤ
  speaker : String
deriving DecidableEq

/-- The overlap test of lines 381-383, literally: `segment.start` in
`[dia.start, dia.end)`, or `segment.end` in `(dia.start, dia.end]`, or
`dia` contained in `[segment.start, segment.end]`. -/
def overlapConds (segment : TranscriptionSegment) (dia : DiarizationSegment) : Prop :=
  (segment.start ≥ dia.start ∧ segment.start < dia.end_) ∨
  (segment.end_ > dia.start ∧ segment.end_ ≤ dia.end_) ∨
  (segment.start ≤ dia.start ∧ segment.end_ ≥ dia.end_)

instance (segment : TranscriptionSegment) (dia : DiarizationSegment) :
    Decidable (overlapConds segment dia) := by
  unfold overlapConds; exact inferInstance

/-- The scan of lines 379-385: walk `diarization_segments` in order and
stop (`break`) at the first one satisfying `overlapConds`; `none` models
`overlap` remaining `None`. -/
def find_overlap (segment : TranscriptionSegment) :
    List DiarizationSegment → Option DiarizationSegment
  | [] => none
  | dia :: rest =>
    if overlapConds segment dia then some dia else find_overlap segment rest

/-- The overlap duration of `segment` and `dia`.  This notion appears in
the spec only negatively - selection is by scan order, "not by maximal
overlap duration" - and the code never computes it; it is defined here
solely to state that negative fact. -/
def overlapAmount (segment : TranscriptionSegment) (dia : DiarizationSegment) : ℚ :=
  min segment.end_ dia.end_ - max segment.start dia.start

/-- Lines 387-390: the label fused onto `segment` - the label of the first
overlapping diarization segment, or the sentinel `SPEAKER_UNK`. -/
def selectLabel (diarization_segments : List DiarizationSegment)
    (segment : TranscriptionSegment) : String :=
  match find_overlap segment diarization_segments with
  | some overlap => overlap.label
  | none => "SPEAKER_UNK"

/-- The labels fused onto a run of transcription segments, in order. -/
def labelsOf (diarization_segments : List DiarizationSegment)
    (segments : List TranscriptionSegment) : List String :=
  segments.map (selectLabel diarization_segments)

/-- Python `f"SPEAKER_{n:02d}"` (line 394). -/
def speakerIdFor (n : ℕ) : String := "SPEAKER_" ++ String.mk (pad2Chars n)

/-- Lookup in the insertion-ordered association list modelling the Python
dict `speaker_map`. -/
def mapLookup (speaker_map : List (String × String)) (k : String) : Option String :=
  match speaker_map with
  | [] => none
  | (a, v) :: rest => if a = k then some v else mapLookup rest k

/-- Lines 392-397: `if speaker not in speaker_map: speaker_map[speaker] =
f"SPEAKER_{speaker_counter:02d}"; speaker_counter += 1` followed by
`speaker_id = speaker_map[speaker]`.  Returns the updated dict, the
updated counter, and the `speaker_id` read back. -/
def assignSpeaker (speaker_map : List (String × String)) (speaker_counter : ℕ)
    (speaker : String) : List (String × String) × ℕ × String :=
  match mapLookup speaker_map speaker with
  | some sid => (speaker_map, speaker_counter, sid)
  | none => (speaker_map ++ [(speaker, speakerIdFor speaker_counter)],
      speaker_counter + 1, speakerIdFor speaker_counter)

/-- Python `int(q)` on a float: truncation toward zero. -/
def ratTrunc (q : ℚ) : ℤ := q.num.tdiv q.den

/-- Decimal string of a natural number. -/
def decStr (n : ℕ) : String := String.mk (decChars n)

/-- Zero-padded-to-2 decimal string of a natural number. -/
def pad2Str (n : ℕ) : String := String.mk (pad2Chars n)

/-- Decimal string of an integer (Python `str` / `%d`). -/
def intStr (d : ℤ) : String := if d < 0 then "-" ++ decStr (-d).toNat else decStr d.toNat

/-- Python `str(datetime.timedelta(seconds=secs))` for integer `secs`
(line 400): the timedelta normalises to `days` (floor) plus a second count
in `[0, 86400)`, printed as `H:MM:SS` with an unpadded hour, prefixed by
the day count when it is nonzero. -/
def timedeltaStr (secs : ℤ) : String :=
  let days : ℤ := secs.fdiv 86400
  let rem : ℕ := (secs - days * 86400).toNat
  let hms : String := decStr (rem / 3600) ++ ":" ++ pad2Str (rem % 3600 / 60) ++ ":" ++
    pad2Str (rem % 60)
  if days = 0 then hms
  else intStr days ++ (if days = 1 ∨ days = -1 then " day, " else " days, ") ++ hms

/-- The loop state of lines 363-375: the JSON accumulator (`text` and
`segments`), the TXT accumulator, the dict `speaker_map` (insertion
ordered, as Python dicts are) and `speaker_counter`. -/
structure FuseAcc where
  speaker_map : List (String × String)
  speaker_counter : ℕ
  output_json_text : String
  output_json_segments : List FusedEntry
  output_txt : String
deriving DecidableEq

/-- The body of `for segment in segments` (lines 377-416): find the
overlapping diarization segment (lines 379-385), pick the label or the
sentinel (387-390), assign or reuse the speaker id (392-397), format the
`[H:MM:SS]` timestamp from `int(segment.start)` (399-401), extend the JSON
accumulators (404-411), and extend the TXT output, prepending the
`speaker_id` header line exactly when the text accumulated so far does not
already end with `speaker_id` plus newline (413-416). -/
def fuseStep (diarization_segments : List DiarizationSegment) (acc : FuseAcc)
    (segment : TranscriptionSegment) : FuseAcc :=
  let speaker := selectLabel diarization_segments segment
  let asn := assignSpeaker acc.speaker_map acc.speaker_counter speaker
  let speaker_id := asn.2.2
  let start_time_formatted := "[" ++ timedeltaStr (ratTrunc segment.start) ++ "]"
  { speaker_map := asn.1
    speaker_counter := asn.2.1
    output_json_text := acc.output_json_text ++ segment.text ++ " "
    output_json_segments := acc.output_json_segments ++
      [{ text := segment.text, start := segment.start, end_ := segment.end_,
         seek := segment.seek, speaker := speaker_id }]
    output_txt :=
      (if str_endsWith acc.output_txt (speaker_id ++ "\n") then acc.output_txt
       else acc.output_txt ++ speaker_id ++ "\n") ++
      start_time_formatted ++ " - " ++ segment.text ++ "\n" }

/-- The whole fusion run for one audio file (lines 363-416): fold the loop
body over the transcription segments starting from the empty accumulators. -/
def transcribe_audio_fuse (segments : List TranscriptionSegment)
    (diarization_segments : List DiarizationSegment) : FuseAcc :=
  segments.foldl (fuseStep diarization_segments) ⟨[], 0, "", [], ""⟩

/-! ## Specification-side vocabulary for the fusion claims -/

/-- Append `a` to `ns` unless already present: one step of recording a
label in first-seen order. -/
def insertLabel (ns : List String) (a : String) : List String :=
  if a ∈ ns then ns else ns ++ [a]

/-- The distinct labels of `l` in first-seen order, appended to the
already-recorded `ns`. -/
def firstSeen (ns : List String) (l : List String) : List String :=
  l.foldl insertLabel ns

/-- Index of the first occurrence of `a` (length of the list when absent). -/
def posOf (a : String) : List String → ℕ
  | [] => 0
  | b :: l => if b = a then 0 else posOf a l + 1

/-- The association list pairing each of `ns` with the sequential speaker
ids starting at index `k`. -/
def mkMapFrom (k : ℕ) : List String → List (String × String)
  | [] => []
  | a :: l => (a, speakerIdFor k) :: mkMapFrom (k + 1) l

/-! ## Decimal strings -/

theorem charVal_digitChar : ∀ d < 10, charVal (Nat.digitChar d) = d := by decide

theorem decValChars_append_digit (l : List Char) (c : Char) :
    decValChars (l ++ [c]) = 10 * decValChars l + charVal c := by
  unfold decValChars
  rw [List.foldl_append]
  rfl

theorem decValChars_decCharsAux : ∀ f n, n ≤ f → decValChars (decCharsAux f n) = n := by
  intro f
  induction f with
  | zero =>
    intro n hn
    interval_cases n
    rfl
  | succ f ih =>
    intro n hn
    match n with
    | 0 => rfl
    | m + 1 =>
      have hdiv : (m + 1) / 10 < m + 1 := Nat.div_lt_self (Nat.succ_pos m) (by norm_num)
      show decValChars (decCharsAux f ((m + 1) / 10) ++ [Nat.digitChar ((m + 1) % 10)]) = m + 1
      rw [decValChars_append_digit, ih _ (by omega),
        charVal_digitChar _ (Nat.mod_lt _ (by norm_num))]
      omega

theorem decValChars_decChars (n : ℕ) : decValChars (decChars n) = n := by
  unfold decChars
  split
  next h => subst h; rfl
  next h => exact decValChars_decCharsAux n n le_rfl

theorem decValChars_pad2 (n : ℕ) : decValChars (pad2Chars n) = n := by
  unfold pad2Chars
  split
  · show decValChars ('0' :: decChars n) = n
    unfold decValChars
    rw [List.foldl_cons]
    exact decValChars_decChars n
  · exact decValChars_decChars n

/-- Left inverse of `speakerIdFor`: read the number back off the id. -/
def speakerIdVal (s : String) : ℕ := decValChars (s.data.drop 8)

theorem speakerIdVal_speakerIdFor (n : ℕ) : speakerIdVal (speakerIdFor n) = n := by
  unfold speakerIdVal speakerIdFor
  rw [String.data_append]
  have h8 : ("SPEAKER_".data).length = 8 := rfl
  show decValChars ((("SPEAKER_".data) ++ pad2Chars n).drop 8) = n
  rw [← h8, List.drop_left]
  exact decValChars_pad2 n

theorem speakerIdFor_injective : Function.Injective speakerIdFor := by
  intro a b h
  have h2 := congrArg speakerIdVal h
  rwa [speakerIdVal_speakerIdFor, speakerIdVal_speakerIdFor] at h2

/-! ## Date-range driver: theorems -/

theorem rangeDatesAsc_eq (s e : ℤ) :
    rangeDatesAsc s e = (List.range (e + 1 - s).toNat).map (fun (i : ℕ) => s + (i : ℤ)) := by
  induction s, e using rangeDatesAsc.induct with
  | case1 s e h ih =>
    rw [rangeDatesAsc, dif_pos h, ih]
    have h2 : (e + 1 - s).toNat = (e + 1 - (s + 1)).toNat + 1 := by omega
    rw [h2, List.range_succ_eq_map]
    simp only [List.map_cons, List.map_map, Nat.cast_zero, add_zero]
    congr 1
    apply List.map_congr_left
    intro i _
    simp only [Function.comp_apply]
    push_cast
    omega
  | case2 s e h =>
    rw [rangeDatesAsc, dif_neg h]
    have h2 : (e + 1 - s).toNat = 0 := by omega
    simp [h2]

theorem pastDatesDesc_eq (start current : ℤ) :
    pastDatesDesc start current =
      (List.range (current + 1 - start).toNat).map (fun (i : ℕ) => current - (i : ℤ)) := by
  generalize hk : (current + 1 - start).toNat = k
  induction k generalizing current with
  | zero =>
    rw [pastDatesDesc, dif_neg (by omega)]
    simp
  | succ k ih =>
    rw [pastDatesDesc, dif_pos (by omega)]
    rw [ih (current - 1) (by omega), List.range_succ_eq_map]
    simp only [List.map_cons, List.map_map, Nat.cast_zero, sub_zero]
    congr 1
    apply List.map_congr_left
    intro i _
    simp only [Function.comp_apply]
    push_cast
    omega

/-- C5: for an explicit start/end range request the driver fails (with the
invalid-range diagnostic, modelling `InvalidRangeError`) exactly when the
start is after the end or either endpoint is after today; the validation
happens before any date is expanded or fetched, and on valid input the
driver succeeds. -/
theorem range_validation_iff : ∀ start_date end_date today : ℤ,
    (download_archives_by_range start_date end_date today).isOk = false ↔
      (start_date > end_date ∨ start_date > today ∨ end_date > today) := by
  intro s e t
  unfold download_archives_by_range
  split_ifs with h1 h2
  · simp only [Except.isOk, Except.toBool, eq_self_iff_true, true_iff]
    omega
  · simp only [Except.isOk, Except.toBool, eq_self_iff_true, true_iff]
    omega
  · simp only [Except.isOk, Except.toBool, Bool.true_eq_false, false_iff]
    omega

/-- C6: the date sequence matches the requested mode.  An explicit
start/end pair expands to every date from start to end inclusive,
ascending and gap-free (the `List.range` image); a trailing-N-days request
yields exactly N+1 consecutive dates ending at today, descending, with
today first. -/
theorem date_range_modes :
    (∀ s e : ℤ, rangeDatesAsc s e =
      (List.range (e + 1 - s).toNat).map (fun (i : ℕ) => s + (i : ℤ))) ∧
    (∀ (today : ℤ) (past_days : ℕ),
      download_past_n_days today past_days =
        (List.range (past_days + 1)).map (fun (i : ℕ) => today - (i : ℤ))) := by
  refine ⟨rangeDatesAsc_eq, fun t n => ?_⟩
  unfold download_past_n_days
  rw [pastDatesDesc_eq]
  have h2 : (t + 1 - (t - (n : ℤ))).toNat = n + 1 := by omega
  rw [h2]

/-! ## Fetch pool: theorems -/

theorem zip_map_filter (F : String → FetchOutcome) (bad : String) :
    ∀ ids : List String,
      (ids.zip (ids.map F)).filter (fun p => p.1 != bad)
        = (ids.filter (fun i => i != bad)).map (fun i => (i, F i)) := by
  intro ids
  induction ids with
  | nil => rfl
  | cons a l ih =>
    simp only [List.map_cons, List.zip_cons_cons, List.filter_cons]
    by_cases h : a = bad
    · subst h
      simp [ih]
    · simp [h, ih]

/-- C9: the per-date fetch pool attempts exactly one fetch per archive id
(N attempts for N ids), the attempted set does not depend on the
concurrency bound, and replacing the response of one id by a failure
leaves the outcome of every sibling id unchanged: failures are logged and
skipped, never retried, and never fail the batch. -/
theorem fetch_pool_attempts : ∀ (archive_ids : List String) (jobs jobs2 : ℕ)
    (respond respond2 : String → HttpResponse) (bad : String),
    (download_archive_fetches archive_ids jobs respond).length = archive_ids.length ∧
    download_archive_fetches archive_ids jobs respond
      = download_archive_fetches archive_ids jobs2 respond ∧
    ((∀ i, i ≠ bad → respond2 i = respond i) →
      (archive_ids.zip (download_archive_fetches archive_ids jobs respond)).filter
          (fun p => p.1 != bad)
        = (archive_ids.zip (download_archive_fetches archive_ids jobs respond2)).filter
          (fun p => p.1 != bad)) := by
  intro ids jobs jobs2 f g bad
  refine ⟨by simp [download_archive_fetches], rfl, fun hagree => ?_⟩
  unfold download_archive_fetches
  rw [zip_map_filter, zip_map_filter]
  apply List.map_congr_left
  intro i hi
  have hne : i ≠ bad := by simpa using (List.mem_filter.mp hi).2
  rw [hagree i hne]

/-- An all-successful response oracle. -/
def respond_ok : String → HttpResponse := fun a_id => ⟨200, a_id ++ ".mp3", ""⟩

/-- The same oracle with a failure injected for id `"2"`. -/
def respond_bad : String → HttpResponse :=
  fun a_id => if a_id = "2" then ⟨404, "", "Failed to download mp3"⟩ else respond_ok a_id

theorem fetch_pool_attempts_witness :
    (download_archive_fetches ["1", "2", "3"] 1 respond_ok).length = ["1", "2", "3"].length ∧
    download_archive_fetches ["1", "2", "3"] 1 respond_ok
      = download_archive_fetches ["1", "2", "3"] 4 respond_ok ∧
    (["1", "2", "3"].zip (download_archive_fetches ["1", "2", "3"] 1 respond_ok)).filter
        (fun p => p.1 != "2")
      = (["1", "2", "3"].zip (download_archive_fetches ["1", "2", "3"] 1 respond_bad)).filter
        (fun p => p.1 != "2") := by
  have h := fetch_pool_attempts ["1", "2", "3"] 1 4 respond_ok respond_bad "2"
  exact ⟨h.1, h.2.1, h.2.2 (fun i hi => by simp [respond_bad, hi])⟩

/-! ## Concatenator: theorems -/

theorem charsLe_total : ∀ as bs : List Char, charsLe as bs = true ∨ charsLe bs as = true := by
  intro as
  induction as with
  | nil =>
    intro bs
    left
    rfl
  | cons a as ih =>
    intro bs
    match bs with
    | [] =>
      right
      rfl
    | b :: bs =>
      by_cases h : a = b
      · subst h
        rcases ih bs with h1 | h1
        · left
          simpa [charsLe] using h1
        · right
          simpa [charsLe] using h1
      · rcases lt_or_gt_of_ne h with hlt | hlt
        · left
          simp [charsLe, h, hlt]
        · right
          have hba : ¬ b = a := fun hh => h hh.symm
          simp [charsLe, hba, hlt]

theorem charsLe_trans : ∀ as bs cs : List Char,
    charsLe as bs = true → charsLe bs cs = true → charsLe as cs = true := by
  intro as
  induction as with
  | nil =>
    intro bs cs _ _
    rfl
  | cons a as ih =>
    intro bs cs h1 h2
    match bs, cs with
    | [], _ => exact absurd h1 (by simp [charsLe])
    | _ :: _, [] => exact absurd h2 (by simp [charsLe])
    | b :: bs, c :: cs =>
      by_cases hab : a = b
      · subst hab
        by_cases hac : a = c
        · subst hac
          simp only [charsLe, if_pos rfl] at h1 h2 ⊢
          exact ih bs cs h1 h2
        · simp only [charsLe, if_neg hac] at h2 ⊢
          exact h2
      · simp only [charsLe, if_neg hab, decide_eq_true_eq] at h1
        by_cases hbc : b = c
        · subst hbc
          simp only [charsLe, if_neg hab, decide_eq_true_eq]
          exact h1
        · simp only [charsLe, if_neg hbc, decide_eq_true_eq] at h2
          have hac : a < c := lt_trans h1 h2
          simp only [charsLe, if_neg (ne_of_lt hac), decide_eq_true_eq]
          exact hac

instance : IsTotal String (fun a b => pystr_le a b = true) :=
  ⟨fun a b => charsLe_total a.data b.data⟩

instance : IsTrans String (fun a b => pystr_le a b = true) :=
  ⟨fun a b c => charsLe_trans a.data b.data c.data⟩

/-- C7: when the directory holds zero eligible audio files the
concatenator returns the no-files outcome (the warning return of lines
283-285, the spec's `NoFilesError`) and its mutation trace is empty - no
file is created, deleted or overwritten. -/
theorem combine_no_files_no_mutation :
    ∀ (ffmpeg_exe : String) (dir_files : List String) (feed_id date_str : String)
      (encoder : Except String Unit),
      eligible_mp3_files dir_files = [] →
      combine_mp3_files (some ffmpeg_exe) dir_files feed_id date_str encoder
        = (.noFiles, []) := by
  intro exe files feed date enc h
  unfold combine_mp3_files sorted_mp3_files
  rw [h]
  rfl

theorem combine_no_files_no_mutation_witness :
    eligible_mp3_files ["combined_123_20240101.mp3", "notes.txt"] = [] ∧
    combine_mp3_files (some "ffmpeg") ["combined_123_20240101.mp3", "notes.txt"]
        "123" "20240101" (.ok ()) = (.noFiles, []) := by
  refine ⟨by decide, ?_⟩
  exact combine_no_files_no_mutation "ffmpeg" ["combined_123_20240101.mp3", "notes.txt"]
    "123" "20240101" (.ok ()) (by decide)

/-- C8: with at least one eligible file, the concatenator's input is the
directory's audio files minus any previous combined output, sorted
lexically, and the encoder concatenates exactly that list in that order;
on success it removes every original segment file, writes the merged file
in the per-date directory and copies it into the parent feed directory;
on encoder failure it returns the encoder diagnostic; and on both exit
paths the temporary list file is removed. -/
theorem combine_success_error_paths :
    ∀ (ffmpeg_exe : String) (dir_files : List String) (feed_id date_str err : String),
      sorted_mp3_files dir_files ≠ [] →
      combine_mp3_files (some ffmpeg_exe) dir_files feed_id date_str (.ok ())
        = (.ok (combined_name feed_id date_str),
          [.writeTempList (sorted_mp3_files dir_files),
           .runConcat (sorted_mp3_files dir_files) (combined_name feed_id date_str)]
            ++ (sorted_mp3_files dir_files).map FsAction.removeFile
            ++ [.copyToParentDir (combined_name feed_id date_str), .removeTempList]) ∧
      combine_mp3_files (some ffmpeg_exe) dir_files feed_id date_str (.error err)
        = (.encodeError err,
          [.writeTempList (sorted_mp3_files dir_files), .removeTempList]) ∧
      List.Sorted (fun a b => pystr_le a b = true) (sorted_mp3_files dir_files) ∧
      (sorted_mp3_files dir_files).Perm (eligible_mp3_files dir_files) := by
  intro exe files feed date err h
  refine ⟨?_, ?_, List.sorted_insertionSort _ _, List.perm_insertionSort _ _⟩
  · unfold combine_mp3_files
    rw [if_neg h]
  · unfold combine_mp3_files
    rw [if_neg h]

theorem combine_success_error_paths_witness :
    sorted_mp3_files ["b.mp3", "a.mp3"] = ["a.mp3", "b.mp3"] ∧
    combine_mp3_files (some "ffmpeg") ["b.mp3", "a.mp3"] "123" "20240101" (.ok ())
      = (.ok (combined_name "123" "20240101"),
        [.writeTempList (sorted_mp3_files ["b.mp3", "a.mp3"]),
         .runConcat (sorted_mp3_files ["b.mp3", "a.mp3"]) (combined_name "123" "20240101")]
          ++ (sorted_mp3_files ["b.mp3", "a.mp3"]).map FsAction.removeFile
          ++ [.copyToParentDir (combined_name "123" "20240101"), .removeTempList]) ∧
    combine_mp3_files (some "ffmpeg") ["b.mp3", "a.mp3"] "123" "20240101" (.error "boom")
      = (.encodeError "boom",
        [.writeTempList (sorted_mp3_files ["b.mp3", "a.mp3"]), .removeTempList]) ∧
    List.Sorted (fun a b => pystr_le a b = true) (sorted_mp3_files ["b.mp3", "a.mp3"]) ∧
    (sorted_mp3_files ["b.mp3", "a.mp3"]).Perm (eligible_mp3_files ["b.mp3", "a.mp3"]) := by
  have h := combine_success_error_paths "ffmpeg" ["b.mp3", "a.mp3"] "123" "20240101" "boom"
    (by decide)
  exact ⟨by decide, h.1, h.2.1, h.2.2.1, h.2.2.2⟩

/-! ## Fusion engine: speaker-map bookkeeping lemmas -/

theorem mapLookup_mkMapFrom : ∀ (ns : List String) (k : ℕ) (a : String),
    mapLookup (mkMapFrom k ns) a
      = if a ∈ ns then some (speakerIdFor (k + posOf a ns)) else none := by
  intro ns
  induction ns with
  | nil =>
    intro k a
    simp [mkMapFrom, mapLookup]
  | cons b l ih =>
    intro k a
    by_cases h : b = a
    · subst h
      simp [mkMapFrom, mapLookup, posOf]
    · have h2 : ¬ a = b := fun hh => h hh.symm
      simp only [mkMapFrom, mapLookup, if_neg h, ih, posOf, List.mem_cons, h2, false_or]
      by_cases hm : a ∈ l
      · simp only [hm, if_true]
        have h3 : k + 1 + posOf a l = k + (posOf a l + 1) := by omega
        rw [h3]
      · simp [hm]

theorem firstSeen_cons (ns : List String) (a : String) (l : List String) :
    firstSeen ns (a :: l) = firstSeen (insertLabel ns a) l := rfl

theorem firstSeen_suffix : ∀ (l ns : List String), ∃ suf, firstSeen ns l = ns ++ suf := by
  intro l
  induction l with
  | nil =>
    intro ns
    exact ⟨[], by simp [firstSeen]⟩
  | cons a l ih =>
    intro ns
    rcases ih (insertLabel ns a) with ⟨suf, hsuf⟩
    rw [firstSeen_cons, hsuf]
    unfold insertLabel
    by_cases h : a ∈ ns
    · rw [if_pos h]
      exact ⟨suf, rfl⟩
    · rw [if_neg h]
      exact ⟨a :: suf, by simp⟩

theorem mem_insertLabel_self (ns : List String) (a : String) : a ∈ insertLabel ns a := by
  unfold insertLabel
  by_cases h : a ∈ ns
  · rwa [if_pos h]
  · rw [if_neg h]
    simp

theorem posOf_append_left : ∀ (ns : List String) (a : String), a ∈ ns →
    ∀ suf, posOf a (ns ++ suf) = posOf a ns := by
  intro ns
  induction ns with
  | nil =>
    intro a ha
    simp at ha
  | cons b l ih =>
    intro a ha suf
    simp only [List.cons_append, posOf]
    by_cases h : b = a
    · simp [h]
    · have hmem : a ∈ l := by
        rcases List.mem_cons.mp ha with h1 | h1
        · exact absurd h1.symm h
        · exact h1
      simp only [if_neg h, List.append_eq]
      rw [ih a hmem suf]

theorem posOf_append_self : ∀ (ns : List String) (a : String), a ∉ ns →
    posOf a (ns ++ [a]) = ns.length := by
  intro ns
  induction ns with
  | nil =>
    intro a _
    simp [posOf]
  | cons b l ih =>
    intro a ha
    have hb : ¬ b = a := fun hh => ha (by rw [hh]; exact List.mem_cons_self a l)
    have hal : a ∉ l := fun hm => ha (List.mem_cons_of_mem b hm)
    simp only [List.cons_append, posOf, if_neg hb, List.length_cons, List.append_eq]
    rw [ih a hal]

theorem posOf_lt_length : ∀ (ns : List String) (a : String), a ∈ ns →
    posOf a ns < ns.length := by
  intro ns
  induction ns with
  | nil =>
    intro a ha
    simp at ha
  | cons b l ih =>
    intro a ha
    simp only [posOf, List.length_cons]
    by_cases h : b = a
    · simp [h]
    · have hmem : a ∈ l := by
        rcases List.mem_cons.mp ha with h1 | h1
        · exact absurd h1.symm h
        · exact h1
      rw [if_neg h]
      exact Nat.succ_lt_succ (ih a hmem)

theorem posOf_firstSeen (L ns : List String) (a : String) (ha : a ∈ ns) :
    posOf a (firstSeen ns L) = posOf a ns := by
  rcases firstSeen_suffix L ns with ⟨suf, hs⟩
  rw [hs, posOf_append_left ns a ha suf]

theorem mem_firstSeen_base (l ns : List String) (a : String) (ha : a ∈ ns) :
    a ∈ firstSeen ns l := by
  rcases firstSeen_suffix l ns with ⟨suf, hs⟩
  rw [hs]
  exact List.mem_append_left _ ha

theorem mem_firstSeen : ∀ (l ns : List String) (a : String), a ∈ l → a ∈ firstSeen ns l := by
  intro l
  induction l with
  | nil =>
    intro ns a ha
    simp at ha
  | cons b l ih =>
    intro ns a ha
    rcases List.mem_cons.mp ha with h1 | h1
    · subst h1
      rw [firstSeen_cons]
      exact mem_firstSeen_base l (insertLabel ns a) a (mem_insertLabel_self ns a)
    · rw [firstSeen_cons]
      exact ih _ a h1

theorem firstSeen_nodup : ∀ (l ns : List String), ns.Nodup → (firstSeen ns l).Nodup := by
  intro l
  induction l with
  | nil =>
    intro ns h
    simpa [firstSeen] using h
  | cons a l ih =>
    intro ns h
    rw [firstSeen_cons]
    apply ih
    unfold insertLabel
    by_cases hm : a ∈ ns
    · rwa [if_pos hm]
    · rw [if_neg hm]
      simp [List.nodup_append, h, hm]

theorem mkMapFrom_append : ∀ (xs ys : List String) (k : ℕ),
    mkMapFrom k (xs ++ ys) = mkMapFrom k xs ++ mkMapFrom (k + xs.length) ys := by
  intro xs
  induction xs with
  | nil =>
    intro ys k
    simp [mkMapFrom]
  | cons a l ih =>
    intro ys k
    simp only [List.cons_append, List.append_eq, mkMapFrom, ih, List.length_cons,
      List.cons.injEq, true_and]
    have h3 : k + 1 + l.length = k + (l.length + 1) := by omega
    rw [h3]

theorem mkMapFrom_fst : ∀ (ns : List String) (k : ℕ), (mkMapFrom k ns).map Prod.fst = ns := by
  intro ns
  induction ns with
  | nil =>
    intro k
    rfl
  | cons a l ih =>
    intro k
    simp [mkMapFrom, ih]

theorem mkMapFrom_length : ∀ (ns : List String) (k : ℕ),
    (mkMapFrom k ns).length = ns.length := by
  intro ns
  induction ns with
  | nil =>
    intro k
    rfl
  | cons a l ih =>
    intro k
    simp [mkMapFrom, ih]

theorem mkMapFrom_snd : ∀ (ns : List String) (k : ℕ),
    (mkMapFrom k ns).map Prod.snd
      = (List.range ns.length).map (fun i => speakerIdFor (k + i)) := by
  intro ns
  induction ns with
  | nil =>
    intro k
    rfl
  | cons a l ih =>
    intro k
    simp only [mkMapFrom, List.map_cons, List.length_cons, List.range_succ_eq_map,
      List.map_map, ih, List.cons.injEq]
    refine ⟨by simp, ?_⟩
    apply List.map_congr_left
    intro i _
    simp only [Function.comp_apply]
    have h4 : k + 1 + i = k + (i + 1) := by omega
    rw [h4]

/-- Effect of one loop iteration on an accumulator whose speaker map is in
canonical first-seen form: the map and counter absorb the segment's label,
and the emitted entry carries the id at the label's first-seen position.
The JSON text and TXT fields evolve too but are not constrained here. -/
theorem fuseStep_shape (ds : List DiarizationSegment) (t : TranscriptionSegment)
    (ns : List String) (jt ot : String) (js : List FusedEntry) :
    ∃ jt2 ot2,
      fuseStep ds ⟨mkMapFrom 0 ns, ns.length, jt, js, ot⟩ t
        = ⟨mkMapFrom 0 (insertLabel ns (selectLabel ds t)),
           (insertLabel ns (selectLabel ds t)).length,
           jt2,
           js ++ [⟨t.text, t.start, t.end_, t.seek,
               speakerIdFor (posOf (selectLabel ds t) (insertLabel ns (selectLabel ds t)))⟩],
           ot2⟩ := by
  refine ⟨jt ++ t.text ++ " ",
    (if str_endsWith ot
        (speakerIdFor (posOf (selectLabel ds t) (insertLabel ns (selectLabel ds t))) ++ "\n")
     then ot
     else ot ++ speakerIdFor (posOf (selectLabel ds t) (insertLabel ns (selectLabel ds t)))
       ++ "\n") ++ ("[" ++ timedeltaStr (ratTrunc t.start) ++ "]") ++ " - " ++ t.text ++ "\n",
    ?_⟩
  by_cases hmem : selectLabel ds t ∈ ns
  · have hasn : assignSpeaker (mkMapFrom 0 ns) ns.length (selectLabel ds t)
        = (mkMapFrom 0 ns, ns.length, speakerIdFor (posOf (selectLabel ds t) ns)) := by
      unfold assignSpeaker
      rw [mapLookup_mkMapFrom, if_pos hmem]
      simp
    have hins : insertLabel ns (selectLabel ds t) = ns := by
      unfold insertLabel
      rw [if_pos hmem]
    simp only [fuseStep, hasn, hins]
  · have hasn : assignSpeaker (mkMapFrom 0 ns) ns.length (selectLabel ds t)
        = (mkMapFrom 0 ns ++ [(selectLabel ds t, speakerIdFor ns.length)], ns.length + 1,
           speakerIdFor ns.length) := by
      unfold assignSpeaker
      rw [mapLookup_mkMapFrom, if_neg hmem]
    have hins : insertLabel ns (selectLabel ds t) = ns ++ [selectLabel ds t] := by
      unfold insertLabel
      rw [if_neg hmem]
    have hmap : mkMapFrom 0 ns ++ [(selectLabel ds t, speakerIdFor ns.length)]
        = mkMapFrom 0 (ns ++ [selectLabel ds t]) := by
      rw [mkMapFrom_append]
      simp [mkMapFrom]
    have hpos : posOf (selectLabel ds t) (ns ++ [selectLabel ds t]) = ns.length :=
      posOf_append_self ns _ hmem
    simp only [fuseStep, hasn, hins, hmap, hpos, List.length_append, List.length_singleton]

/-- The fold invariant behind C2, C3 and C10: starting from a canonical
accumulator over already-seen labels `ns`, the loop ends with the map in
canonical form over `firstSeen ns` of the fused labels, the counter equal
to its size, and one JSON entry per transcription segment, in order,
labelled with the id at the label's first-seen position. -/
theorem fuse_fold (ds : List DiarizationSegment) :
    ∀ (ts : List TranscriptionSegment) (ns : List String) (jt ot : String)
      (js : List FusedEntry),
      ((ts.foldl (fuseStep ds) ⟨mkMapFrom 0 ns, ns.length, jt, js, ot⟩).speaker_map
          = mkMapFrom 0 (firstSeen ns (labelsOf ds ts))) ∧
      ((ts.foldl (fuseStep ds) ⟨mkMapFrom 0 ns, ns.length, jt, js, ot⟩).speaker_counter
          = (firstSeen ns (labelsOf ds ts)).length) ∧
      ((ts.foldl (fuseStep ds) ⟨mkMapFrom 0 ns, ns.length, jt, js, ot⟩).output_json_segments
          = js ++ ts.map (fun u =>
              ⟨u.text, u.start, u.end_, u.seek,
               speakerIdFor (posOf (selectLabel ds u) (firstSeen ns (labelsOf ds ts)))⟩)) := by
  intro ts
  induction ts with
  | nil =>
    intro ns jt ot js
    exact ⟨rfl, rfl, by simp⟩
  | cons t rest ih =>
    intro ns jt ot js
    obtain ⟨jt2, ot2, hstep⟩ := fuseStep_shape ds t ns jt ot js
    have hlab : labelsOf ds (t :: rest) = selectLabel ds t :: labelsOf ds rest := rfl
    rw [List.foldl_cons, hstep]
    obtain ⟨h1, h2, h3⟩ := ih (insertLabel ns (selectLabel ds t)) jt2 ot2
      (js ++ [⟨t.text, t.start, t.end_, t.seek,
        speakerIdFor (posOf (selectLabel ds t) (insertLabel ns (selectLabel ds t)))⟩])
    refine ⟨?_, ?_, ?_⟩
    · rw [h1, hlab, firstSeen_cons]
    · rw [h2, hlab, firstSeen_cons]
    · rw [h3, hlab, firstSeen_cons, List.append_assoc, List.singleton_append, List.map_cons,
        posOf_firstSeen _ _ _ (mem_insertLabel_self ns (selectLabel ds t))]

/-- The fold invariant at the actual initial accumulator of lines 364-375. -/
theorem transcribe_fuse_spec (ts : List TranscriptionSegment) (ds : List DiarizationSegment) :
    (transcribe_audio_fuse ts ds).speaker_map
        = mkMapFrom 0 (firstSeen [] (labelsOf ds ts)) ∧
    (transcribe_audio_fuse ts ds).speaker_counter
        = (firstSeen [] (labelsOf ds ts)).length ∧
    (transcribe_audio_fuse ts ds).output_json_segments
        = ts.map (fun u => ⟨u.text, u.start, u.end_, u.seek,
            speakerIdFor (posOf (selectLabel ds u) (firstSeen [] (labelsOf ds ts)))⟩) := by
  have h := fuse_fold ds ts [] "" "" []
  exact ⟨h.1, h.2.1, by simpa using h.2.2⟩

/-! ## Fusion engine: claim theorems -/

/-- C1: for every transcription segment and ordered diarization sequence,
the scan selects exactly the first diarization segment (in input order)
satisfying the three-way overlap disjunction - the earliest overlapping
segment always wins - and never selects by maximal overlap duration: in
the closing example the first-scanned segment is chosen although the later
one overlaps strictly longer. -/
theorem find_overlap_first_match :
    (∀ (t : TranscriptionSegment) (ds : List DiarizationSegment) (d : DiarizationSegment),
      find_overlap t ds = some d ↔
        overlapConds t d ∧ ∃ pre post, ds = pre ++ d :: post ∧
          ∀ e ∈ pre, ¬ overlapConds t e) ∧
    find_overlap ⟨0, 10, "a", 0⟩ [⟨9, 12, "A"⟩, ⟨0, 10, "B"⟩] = some ⟨9, 12, "A"⟩ ∧
    overlapAmount ⟨0, 10, "a", 0⟩ ⟨9, 12, "A"⟩ <
      overlapAmount ⟨0, 10, "a", 0⟩ ⟨0, 10, "B"⟩ := by
  refine ⟨?_, by decide, by norm_num [overlapAmount, min_def, max_def]⟩
  intro t ds d
  induction ds with
  | nil =>
    constructor
    · intro h
      exact Option.noConfusion h
    · rintro ⟨hcd, pre, post, heq, hall⟩
      exact absurd heq.symm (by simp)
  | cons dia rest ih =>
    by_cases hc : overlapConds t dia
    · simp only [find_overlap, if_pos hc]
      constructor
      · intro h
        injection h with h
        subst h
        exact ⟨hc, [], rest, rfl, by simp⟩
      · rintro ⟨hcd, pre, post, heq, hall⟩
        cases pre with
        | nil =>
          injection heq with e1 e2
          rw [e1]
        | cons p pre2 =>
          injection heq with e1 e2
          exact absurd hc (e1 ▸ hall p (List.mem_cons_self p pre2))
    · simp only [find_overlap, if_neg hc, ih]
      constructor
      · rintro ⟨hcd, pre, post, heq, hall⟩
        refine ⟨hcd, dia :: pre, post, by rw [List.cons_append, heq], ?_⟩
        intro e he
        rcases List.mem_cons.mp he with h1 | h1
        · rwa [h1]
        · exact hall e h1
      · rintro ⟨hcd, pre, post, heq, hall⟩
        cases pre with
        | nil =>
          injection heq with e1 e2
          exact absurd (e1 ▸ hcd) hc
        | cons p pre2 =>
          injection heq with e1 e2
          exact ⟨hcd, pre2, post, e2, fun e he => hall e (List.mem_cons_of_mem p he)⟩

/-- The diarization end time 2.5 of the spec's worked example, as a
normal-form rational. -/
def two_point_five : ℚ := Rat.mk' 5 2 (by norm_num) (by norm_num)

/-- C2: within one fusion run every fused label (sentinel included) is
mapped to the sequential id at its first-seen position - `SPEAKER_00`
onwards, assigned in first-seen order and reused on every recurrence; and
on the spec's worked example (transcription `[0,2) "a"`, `[3,5) "b"`,
diarization `[0,2.5) "X"`) the first entry gets `SPEAKER_00` and the
unmatched second entry gets the sentinel's fresh id `SPEAKER_01`. -/
theorem speaker_ids_first_seen :
    (∀ (ts : List TranscriptionSegment) (ds : List DiarizationSegment),
      (transcribe_audio_fuse ts ds).output_json_segments.map FusedEntry.speaker
        = (labelsOf ds ts).map
            (fun l => speakerIdFor (posOf l (firstSeen [] (labelsOf ds ts))))) ∧
    (transcribe_audio_fuse [⟨0, 2, "a", 0⟩, ⟨3, 5, "b", 0⟩]
        [⟨0, two_point_five, "X"⟩]).output_json_segments.map FusedEntry.speaker
      = ["SPEAKER_00", "SPEAKER_01"] := by
  constructor
  · intro ts ds
    rw [(transcribe_fuse_spec ts ds).2.2, List.map_map]
    unfold labelsOf
    rw [List.map_map]
    rfl
  · decide

/-- C3: fusion emits exactly one entry per transcription segment, in input
order, preserving its fields and dropping none; empty transcription input
yields empty output, and empty diarization input labels every entry with
the sentinel-derived id `SPEAKER_00`. -/
theorem fusion_total_per_segment :
    ∀ (ts : List TranscriptionSegment) (ds : List DiarizationSegment),
    (transcribe_audio_fuse ts ds).output_json_segments.length = ts.length ∧
    (transcribe_audio_fuse ts ds).output_json_segments.map (fun e => (e.start, e.end_, e.text))
      = ts.map (fun u => (u.start, u.end_, u.text)) ∧
    (transcribe_audio_fuse [] ds).output_json_segments = [] ∧
    (transcribe_audio_fuse ts []).output_json_segments.map FusedEntry.speaker
      = ts.map (fun _ => "SPEAKER_00") := by
  intro ts ds
  refine ⟨?_, ?_, rfl, ?_⟩
  · rw [(transcribe_fuse_spec ts ds).2.2, List.length_map]
  · rw [(transcribe_fuse_spec ts ds).2.2, List.map_map]
    rfl
  · rw [(transcribe_fuse_spec ts []).2.2, List.map_map]
    cases ts with
    | nil => rfl
    | cons t rest =>
      have hsel : ∀ v : TranscriptionSegment, selectLabel [] v = "SPEAKER_UNK" := fun v => rfl
      have hN : posOf "SPEAKER_UNK"
          (firstSeen [] (labelsOf ([] : List DiarizationSegment) (t :: rest))) = 0 := by
        have hlab : labelsOf ([] : List DiarizationSegment) (t :: rest)
            = "SPEAKER_UNK" :: labelsOf [] rest := rfl
        rw [hlab, firstSeen_cons]
        have hil : insertLabel [] "SPEAKER_UNK" = ["SPEAKER_UNK"] := rfl
        rw [hil, posOf_firstSeen _ _ _ (by simp)]
        rfl
      apply List.map_congr_left
      intro u hu
      simp only [Function.comp_apply, hsel, hN]
      decide

/-- C4 (divergence witness): on two consecutive entries fused to the same
speaker, the human-readable projection prints the `SPEAKER_00` header line
before each of the two entries - the `endswith` guard of line 414 compares
against an accumulator that ends with the previous `[H:MM:SS] - text` line,
so it cannot suppress the repeated header; the timestamps themselves are
the starts truncated to whole seconds as claimed. -/
theorem fusion_txt_repeats_header :
    (transcribe_audio_fuse [⟨0, 2, "a", 0⟩, ⟨3, 5, "b", 0⟩]
        [⟨0, 10, "X"⟩]).output_json_segments.map FusedEntry.speaker
      = ["SPEAKER_00", "SPEAKER_00"] ∧
    (transcribe_audio_fuse [⟨0, 2, "a", 0⟩, ⟨3, 5, "b", 0⟩] [⟨0, 10, "X"⟩]).output_txt
      = "SPEAKER_00\n[0:00:00] - a\nSPEAKER_00\n[0:00:03] - b\n" := by
  constructor
  · decide
  · decide

/-- C10: after any fusion run the speaker map is injective with value
list exactly `SPEAKER_00 .. SPEAKER_(k-1)` in order (k the number of
distinct labels seen), its keys are distinct, the counter equals the map's
size, and every emitted speaker id is one of the map's values; since this
holds for every input prefix, each loop iteration preserves it. -/
theorem speaker_map_invariant :
    ∀ (ts : List TranscriptionSegment) (ds : List DiarizationSegment),
    (transcribe_audio_fuse ts ds).speaker_counter
        = (transcribe_audio_fuse ts ds).speaker_map.length ∧
    ((transcribe_audio_fuse ts ds).speaker_map.map Prod.fst).Nodup ∧
    ((transcribe_audio_fuse ts ds).speaker_map.map Prod.snd
        = (List.range (transcribe_audio_fuse ts ds).speaker_map.length).map speakerIdFor) ∧
    ((transcribe_audio_fuse ts ds).speaker_map.map Prod.snd).Nodup ∧
    ((transcribe_audio_fuse ts ds).output_json_segments.map FusedEntry.speaker) ⊆
        (transcribe_audio_fuse ts ds).speaker_map.map Prod.snd := by
  intro ts ds
  obtain ⟨h1, h2, h3⟩ := transcribe_fuse_spec ts ds
  have hlen : (transcribe_audio_fuse ts ds).speaker_map.length
      = (firstSeen [] (labelsOf ds ts)).length := by
    rw [h1, mkMapFrom_length]
  have hsnd : (transcribe_audio_fuse ts ds).speaker_map.map Prod.snd
      = (List.range (firstSeen [] (labelsOf ds ts)).length).map speakerIdFor := by
    rw [h1, mkMapFrom_snd]
    simp
  refine ⟨?_, ?_, ?_, ?_, ?_⟩
  · rw [h2, hlen]
  · rw [h1, mkMapFrom_fst]
    exact firstSeen_nodup _ _ List.nodup_nil
  · rw [hsnd, hlen]
  · rw [hsnd]
    exact (List.nodup_range _).map speakerIdFor_injective
  · rw [hsnd, h3, List.map_map]
    intro x hx
    rw [List.mem_map] at hx
    obtain ⟨u, hu, hxu⟩ := hx
    rw [List.mem_map]
    refine ⟨posOf (selectLabel ds u) (firstSeen [] (labelsOf ds ts)),
      List.mem_range.mpr ?_, ?_⟩
    · exact posOf_lt_length _ _
        (mem_firstSeen _ _ _ (List.mem_map.mpr ⟨u, hu, rfl⟩))
    · rw [← hxu]
      rfl

end BroadcastifyCli
